import Mathlib

/-!
Verification of the MCTS chess-engine experiment.

This file is a shallow embedding of the Monte-Carlo-tree-search notebook of the
repository: the class `Node`, the functions `uct`, `select`, `expand`,
`simulate`, `backpropagate`, and the iteration loop, together with machine
checked proofs of the specification's claims about them.

Modelling choices:
* Python floats are modelled as exact rationals (`ℚ`) for the statistics that
  the code only ever adds and divides, and as exact reals (`ℝ` inside `EReal`)
  for the UCT score, whose formula uses `sqrt`/`log` and `float("inf")`.
* The rules engine (python-chess) is an external collaborator per the
  specification, modelled as an abstract `Rules` structure; the `random`
  module is modelled as an abstract generator structure `RandGen`.
* Python's object graph with parent pointers is modelled as an inductive tree;
  a node's parent is the unique node whose `children` map contains it, and
  operations that follow parent pointers (backpropagation) are driven by the
  root-directed path of the node instead.
-/

namespace ChessMCTS

/-- The external rules engine (the python-chess `Board` operations the notebook
uses): legal-move enumeration, move application, and terminal-outcome
detection.  `outcome p = some w` means the game at `p` is over with winner `w`
(`some true` = White, matching `chess.WHITE = True`; `some false` = Black;
`none` = draw / no winner), while `outcome p = none` means the game is not
over (`board.outcome(claim_draw=True) is None`). -/
structure Rules (Pos Move : Type) where
  legalMoves : Pos → List Move
  applyMove : Pos → Move → Pos
  outcome : Pos → Option (Option Bool)

/-- The external pseudo-random source (the python `random` module), threaded as
explicit state of type `g`: `shuffle` permutes a list (`random.shuffle` at node
creation) and `choose n` draws a number used as an index among `n` legal moves
(`random.choice` in the playout). -/
structure RandGen (Move g : Type) where
  shuffle : List Move → g → List Move × g
  choose : ℕ → g → ℕ × g

variable {Pos Move g : Type}

/-- One node of the MCTS search tree (the notebook's class `Node`): the wrapped
board, the running mean payout `average_evaluation`, the `visit_count`, the
frontier `unexplored_moves`, and the `children` map in insertion order.
The source's `parent` back-reference is represented implicitly: a node is the
parent of exactly the nodes recorded in its `children` list. -/
inductive Node (Pos Move : Type) : Type where
  | mk (board : Pos) (average_evaluation : ℚ) (visit_count : ℕ)
      (unexplored_moves : List Move) (children : List (Move × Node Pos Move))

/-- Field accessor: the node's board. -/
def Node.board : Node Pos Move → Pos
  | .mk b _ _ _ _ => b

/-- Field accessor: the node's running mean payout. -/
def Node.average_evaluation : Node Pos Move → ℚ
  | .mk _ a _ _ _ => a

/-- Field accessor: the node's visit count. -/
def Node.visit_count : Node Pos Move → ℕ
  | .mk _ _ v _ _ => v

/-- Field accessor: the node's frontier of unexplored moves. -/
def Node.unexplored_moves : Node Pos Move → List Move
  | .mk _ _ _ fr _ => fr

/-- Field accessor: the node's children map (association list in insertion
order, mirroring the insertion-ordered python dict). -/
def Node.children : Node Pos Move → List (Move × Node Pos Move)
  | .mk _ _ _ _ ch => ch

/-- `Node.__init__`: a fresh node wrapping `board`, with zero statistics, no
children, and a frontier equal to the shuffled list of legal moves
(`self.unexplored_moves = list(board.legal_moves); random.shuffle(...)`). -/
def mkNode (R : Rules Pos Move) (Gn : RandGen Move g) (board : Pos) (gen : g) :
    Node Pos Move × g :=
  let sh := Gn.shuffle (R.legalMoves board) gen
  (.mk board 0 0 sh.1 [], sh.2)

/-- `Node.is_leaf`: the node still has unexplored moves
(`len(self.unexplored_moves) != 0`). -/
def Node.is_leaf (t : Node Pos Move) : Bool :=
  t.unexplored_moves.length != 0

/-- `Node.is_terminal`: no unexplored moves and no children
(`len(self.unexplored_moves) == 0 and len(self.children) == 0`). -/
def Node.is_terminal (t : Node Pos Move) : Bool :=
  t.unexplored_moves.length == 0 && t.children.length == 0

/-- `UCT_EXPLORATION_CONSTANT = sqrt(2)`. -/
noncomputable def UCT_EXPLORATION_CONSTANT : ℝ := Real.sqrt 2

/-- `uct(node, parent)`: `float("inf")` for a never-visited node, otherwise
`node.average_evaluation + UCT_EXPLORATION_CONSTANT *
sqrt(log(parent.visit_count) / node.visit_count)`.  The codomain `EReal`
models the IEEE infinity the source returns for unvisited nodes. -/
noncomputable def uct (node parent : Node Pos Move) : EReal :=
  if node.visit_count = 0 then (⊤ : EReal)
  else (((node.average_evaluation : ℝ) + UCT_EXPLORATION_CONSTANT *
    Real.sqrt (Real.log (parent.visit_count : ℝ) / (node.visit_count : ℝ)) : ℝ) : EReal)

/-- Python's `max(xs, key=f)` over a non-empty list `x :: xs`: left fold that
keeps the earlier element on ties (CPython replaces the current best only on a
strictly greater key). -/
noncomputable def maxByKey {α : Type} (f : α → EReal) (x : α) (xs : List α) : α :=
  xs.foldl (fun best y => if f best < f y then y else best) x

/-- Auxiliary size bound: a child stored in a node's children list is
structurally smaller than the node (used for termination of `select`). -/
theorem sizeOf_child_lt {mc : Move × Node Pos Move} {b : Pos} {a : ℚ} {v : ℕ}
    {fr : List Move} {ch : List (Move × Node Pos Move)} (hm : mc ∈ ch) :
    sizeOf mc.2 < sizeOf (Node.mk b a v fr ch) := by
  have h1 : sizeOf mc < sizeOf ch := List.sizeOf_lt_of_mem hm
  have h2 : sizeOf mc.2 < sizeOf mc := by
    obtain ⟨m, c⟩ := mc
    simp only [Prod.mk.sizeOf_spec]
    omega
  have h3 : sizeOf (Node.mk b a v fr ch) = 1 + sizeOf b + sizeOf a + sizeOf v +
      sizeOf fr + sizeOf ch := by
    simp [Node.mk.sizeOf_spec]
  omega

/-- The result of `maxByKey` is one of the candidates. -/
theorem maxByKey_mem {α : Type} (f : α → EReal) :
    ∀ (xs : List α) (x : α), maxByKey f x xs ∈ x :: xs := by
  intro xs
  induction xs with
  | nil => intro x; simp [maxByKey]
  | cons y ys ih =>
    intro x
    simp only [maxByKey, List.foldl_cons]
    by_cases hc : f x < f y
    · simp only [if_pos hc]
      have h := ih y
      simp only [maxByKey] at h
      rcases List.mem_cons.mp h with h1 | h1
      · rw [h1]; simp
      · simp [List.mem_cons, h1]
    · simp only [if_neg hc]
      have h := ih x
      simp only [maxByKey] at h
      rcases List.mem_cons.mp h with h1 | h1
      · rw [h1]; simp
      · simp [List.mem_cons, h1]

/-- `select(node)` of the notebook, computing in addition the root-directed
path of the returned node (first components).  The source returns the node
object itself and backpropagation later follows its parent pointers; the
embedding records the path of children-map keys instead.  At a node that is
neither a leaf nor terminal, the child maximizing `uct` is chosen
(`max(node.children.values(), key=...)`) and selection recurses into it; the
`[]` children branch is unreachable there (a node with an empty frontier and
no children is terminal) and mirrors the `ValueError` python's `max` would
raise. -/
noncomputable def selectAux : Node Pos Move → List Move × Node Pos Move
  | t =>
    if t.is_leaf || t.is_terminal then ([], t)
    else
      match h : t.children with
      | [] => ([], t)
      | c :: cs =>
        let best := maxByKey (fun mc => uct mc.2 t) c cs
        have hb : best ∈ t.children := h ▸ maxByKey_mem _ cs c
        have : sizeOf best.2 < sizeOf t := by
          obtain ⟨b, a, v, fr, ch⟩ := t
          exact sizeOf_child_lt hb
        let rest := selectAux best.2
        (best.1 :: rest.1, rest.2)
termination_by t => sizeOf t

/-- `select(node)`: the node returned by the selection descent. -/
noncomputable def select (t : Node Pos Move) : Node Pos Move :=
  (selectAux t).2

/-- The root-directed path (sequence of children-map keys) of the node that
`select` returns. -/
noncomputable def selectPath (t : Node Pos Move) : List Move :=
  (selectAux t).1

/-- Python dict assignment `node.children[move] = child`: replace the entry in
place if the key is present (keeping its position, as insertion-ordered dicts
do), otherwise append it. -/
def insertChild [DecidableEq Move] (ch : List (Move × Node Pos Move)) (m : Move)
    (c : Node Pos Move) : List (Move × Node Pos Move) :=
  if ch.any (fun mc => mc.1 == m) then
    ch.map (fun mc => if mc.1 = m then (m, c) else mc)
  else ch ++ [(m, c)]

/-- The body of `expand`'s while loop, processing the moves in pop order
(`list.pop()` removes the last element, so the caller passes the reversed
frontier): each move is applied to a copy of the node's board, a fresh child
node is created for the resulting position and recorded in the children map,
and the move/child pair of the most recently created child is carried along. -/
def expandAux [DecidableEq Move] (R : Rules Pos Move) (Gn : RandGen Move g) (board : Pos) :
    List Move → List (Move × Node Pos Move) → Option (Move × Node Pos Move) → g →
    List (Move × Node Pos Move) × Option (Move × Node Pos Move) × g
  | [], ch, last, gen => (ch, last, gen)
  | m :: ms, ch, _, gen =>
    let c := mkNode R Gn (R.applyMove board m) gen
    expandAux R Gn board ms (insertChild ch m c.1) (some (m, c.1)) c.2

/-- `expand(node)`: pops moves off the frontier until it is empty, creating one
child per popped move, and returns the node with its drained frontier and
grown children map, together with the last child created (as a move/child
pair).  A `none` second component models the `UnboundLocalError` python raises
at `return child` when the loop body never ran because the frontier was
already empty. -/
def expand [DecidableEq Move] (R : Rules Pos Move) (Gn : RandGen Move g)
    (t : Node Pos Move) (gen : g) :
    Node Pos Move × Option (Move × Node Pos Move) × g :=
  match t with
  | .mk b a v fr ch =>
    let r := expandAux R Gn b fr.reverse ch none gen
    (.mk b a v [] r.1, r.2.1, r.2.2)

/-- The `payouts` dict: `{None: 0.5, chess.WHITE: 1, chess.BLACK: 0}`
(in python-chess, `chess.WHITE` is `True` and `chess.BLACK` is `False`). -/
def payouts : Option Bool → ℚ
  | none => 1/2
  | some true => 1
  | some false => 0

/-- The while loop of `simulate`, on the copied board: while the game is not
over, push a uniformly drawn legal move; once over, return the payout of the
winner.  A fuel bound makes the playout total: `(none, _)` means the fuel ran
out (the python loop just keeps running in that case), or that `random.choice`
was called on an empty legal-move list (it would raise `IndexError`; with a
consistent rules engine a position without legal moves is always already
over). -/
def simulateBoard (R : Rules Pos Move) (Gn : RandGen Move g) :
    ℕ → Pos → g → Option ℚ × g
  | 0, board, gen =>
    match R.outcome board with
    | some w => (some (payouts w), gen)
    | none => (none, gen)
  | f + 1, board, gen =>
    match R.outcome board with
    | some w => (some (payouts w), gen)
    | none =>
      let ms := R.legalMoves board
      let ch := Gn.choose ms.length gen
      match ms.get? (ch.1 % ms.length) with
      | some m => simulateBoard R Gn f (R.applyMove board m) ch.2
      | none => (none, ch.2)

/-- `simulate(node)`: a random playout on a copy of the node's board
(`board = node.board.copy()`); the node itself — and the search tree it
belongs to — is neither consumed nor produced, so no tree state can change. -/
def simulate (R : Rules Pos Move) (Gn : RandGen Move g) (fuel : ℕ)
    (t : Node Pos Move) (gen : g) : Option ℚ × g :=
  simulateBoard R Gn fuel t.board gen

/-- `backpropagate(node, payout)`, expressed along the root-directed path of
the node: every node on the path from the root down to the addressed node —
exactly the nodes the source's parent-pointer recursion visits, the parentless
root being the base case — gets
`average_evaluation = (average_evaluation * visit_count + payout) / (visit_count + 1)`
and `visit_count += 1`. -/
def backpropagate [DecidableEq Move] (payout : ℚ) :
    List Move → Node Pos Move → Node Pos Move
  | [], t =>
    match t with
    | .mk b a v fr ch => .mk b ((a * (v : ℚ) + payout) / ((v : ℚ) + 1)) (v + 1) fr ch
  | m :: p, t =>
    match t with
    | .mk b a v fr ch =>
      .mk b ((a * (v : ℚ) + payout) / ((v : ℚ) + 1)) (v + 1) fr
        (ch.map (fun mc => if mc.1 = m then (mc.1, backpropagate payout p mc.2) else mc))

/-- Look up the node addressed by a root-directed path of children-map keys. -/
def nodeAt [DecidableEq Move] : Node Pos Move → List Move → Option (Node Pos Move)
  | t, [] => some t
  | t, m :: p =>
    match t.children.find? (fun mc => mc.1 == m) with
    | some mc => nodeAt mc.2 p
    | none => none

/-- Replace the node addressed by a root-directed path with `s` (the in-place
mutation `expand` performs on the selected node, seen from the root). -/
def replaceAt [DecidableEq Move] (s : Node Pos Move) :
    List Move → Node Pos Move → Node Pos Move
  | [], _ => s
  | m :: p, t =>
    match t with
    | .mk b a v fr ch =>
      .mk b a v fr (ch.map (fun mc => if mc.1 = m then (mc.1, replaceAt s p mc.2) else mc))

/-- One iteration of the search loop (the body of
`for i in tqdm(range(1000))`):
`node = select(root)`;
`if len(node.unexplored_moves) > 0 and node.visit_count > 0: node = expand(node)`;
`payout = simulate(node)`; `backpropagate(node, payout)`.
The selected node is addressed by its root-directed path; when the expand
branch is taken, the node to simulate and backpropagate from is the last child
`expand` created, whose path extends the selected node's path by one key.
`none` models a crash or a diverging playout (`expand` misuse on an empty
frontier, or `simulate` running out of fuel). -/
noncomputable def mctsIter [DecidableEq Move] (R : Rules Pos Move) (Gn : RandGen Move g)
    (fuel : ℕ) (t : Node Pos Move) (gen : g) : Option (Node Pos Move × g) :=
  let sel := selectAux t
  if 0 < sel.2.unexplored_moves.length ∧ 0 < sel.2.visit_count then
    match expand R Gn sel.2 gen with
    | (ex, some mc, gen') =>
      let t' := replaceAt ex sel.1 t
      let sim := simulate R Gn fuel mc.2 gen'
      match sim.1 with
      | some payout => some (backpropagate payout (sel.1 ++ [mc.1]) t', sim.2)
      | none => none
    | (_, none, _) => none
  else
    let sim := simulate R Gn fuel sel.2 gen
    match sim.1 with
    | some payout => some (backpropagate payout sel.1 t, sim.2)
    | none => none

/-- `n` iterations of the search loop (`for i in tqdm(range(n))`), threading
the tree and the random state; `none` propagates a crashed iteration. -/
noncomputable def runLoop [DecidableEq Move] (R : Rules Pos Move) (Gn : RandGen Move g)
    (fuel : ℕ) : ℕ → Node Pos Move → g → Option (Node Pos Move × g)
  | 0, t, gen => some (t, gen)
  | n + 1, t, gen =>
    match mctsIter R Gn fuel t gen with
    | some tg => runLoop R Gn fuel n tg.1 tg.2
    | none => none

mutual

/-- All nodes of the search tree (the tree itself and, recursively, the
subtrees hanging off its children). -/
def subtrees : Node Pos Move → List (Node Pos Move)
  | .mk b a v fr ch => .mk b a v fr ch :: subtreesList ch

/-- All nodes of the trees in a children list. -/
def subtreesList : List (Move × Node Pos Move) → List (Node Pos Move)
  | [] => []
  | mc :: rest => subtrees mc.2 ++ subtreesList rest

end

/-- The tree states (with their random state) reachable by the notebook's
search: a freshly created root node (`root = Node(chess.Board())`) and
everything obtained from it by successfully completed loop iterations. -/
inductive Reachable [DecidableEq Move] (R : Rules Pos Move) (Gn : RandGen Move g) :
    Node Pos Move → g → Prop where
  | init (board : Pos) (gen : g) :
      Reachable R Gn (mkNode R Gn board gen).1 (mkNode R Gn board gen).2
  | step {t : Node Pos Move} {gen : g} (fuel : ℕ) {t' : Node Pos Move} {gen' : g} :
      Reachable R Gn t gen → mctsIter R Gn fuel t gen = some (t', gen') →
      Reachable R Gn t' gen'

/-- The statistics update of `backpropagate` on one node, as a pure function on
an (average, visit-count) pair. -/
def bpStep (s : ℚ × ℕ) (payout : ℚ) : ℚ × ℕ :=
  ((s.1 * (s.2 : ℚ) + payout) / ((s.2 : ℚ) + 1), s.2 + 1)

/-- A concrete countdown game used to exercise the definitions: positions are
naturals, the legal moves at `p > 0` subtract `1, ..., p`, and the game is
over (a draw) exactly at `0`. -/
def demoRules : Rules ℕ ℕ where
  legalMoves p := (List.range p).map (· + 1)
  applyMove p m := p - m
  outcome p := if p = 0 then some none else none

/-- A degenerate random source for the demo game: `shuffle` keeps the list as
it is and `choose` always picks index `0`. -/
def demoGen : RandGen ℕ Unit where
  shuffle l _ := (l, ())
  choose _ _ := (0, ())

/-!  Helper lemmas about `expandAux`. -/

/-- `expandAux` on a non-empty move list always reports a last-created child,
keyed by the last processed move. -/
theorem expandAux_last [DecidableEq Move] (R : Rules Pos Move) (Gn : RandGen Move g)
    (b : Pos) :
    ∀ (ms : List Move) (ch : List (Move × Node Pos Move))
      (last : Option (Move × Node Pos Move)) (gen : g), ms ≠ [] →
      ∃ mc, (expandAux R Gn b ms ch last gen).2.1 = some mc ∧ some mc.1 = ms.getLast? := by
  intro ms
  induction ms with
  | nil => intro _ _ _ h; exact absurd rfl h
  | cons m ms ih =>
    intro ch last gen _
    by_cases hms : ms = []
    · subst hms
      exact ⟨(m, (mkNode R Gn (R.applyMove b m) gen).1), by simp [expandAux], by simp⟩
    · obtain ⟨mc, h1, h2⟩ := ih (insertChild ch m (mkNode R Gn (R.applyMove b m) gen).1)
        (some (m, (mkNode R Gn (R.applyMove b m) gen).1))
        (mkNode R Gn (R.applyMove b m) gen).2 hms
      refine ⟨mc, by simpa [expandAux] using h1, ?_⟩
      obtain ⟨m2, ms2, hms2⟩ := List.exists_cons_of_ne_nil hms
      rw [h2, hms2, List.getLast?_cons_cons]

/-- The second return component of `expand` is `none` exactly when the
frontier was empty at the call. -/
theorem expand_none_iff [DecidableEq Move] (R : Rules Pos Move) (Gn : RandGen Move g)
    (t : Node Pos Move) (gen : g) :
    (expand R Gn t gen).2.1 = none ↔ t.unexplored_moves = [] := by
  obtain ⟨b, a, v, fr, ch⟩ := t
  cases hfr : fr with
  | nil => simp [expand, expandAux, Node.unexplored_moves]
  | cons m ms =>
    simp only [Node.unexplored_moves, expand]
    constructor
    · intro h
      obtain ⟨mc, h1, _⟩ := expandAux_last R Gn b (m :: ms).reverse ch none gen (by simp)
      rw [h1] at h
      cases h
    · intro h; cases h

/-- Claim C7: calling `expand` on a node whose frontier is already empty fails
loudly — the embedding returns `none` for the child (modelling the
`UnboundLocalError` raised by `return child` when the while loop body never
ran) — and never silently returns a stale or previously created child; in
that case the node itself is also left exactly as it was. -/
theorem expand_empty_frontier_fails [DecidableEq Move] (R : Rules Pos Move)
    (Gn : RandGen Move g) (t : Node Pos Move) (gen : g) :
    ((expand R Gn t gen).2.1 = none ↔ t.unexplored_moves = []) ∧
    (t.unexplored_moves = [] → expand R Gn t gen = (t, none, gen)) := by
  refine ⟨expand_none_iff R Gn t gen, ?_⟩
  obtain ⟨b, a, v, fr, ch⟩ := t
  intro h
  simp only [Node.unexplored_moves] at h
  subst h
  simp [expand, expandAux]

/-- Witness for C7 at a concrete empty-frontier node of the demo game. -/
theorem expand_empty_frontier_fails_witness :
    ((expand demoRules demoGen (Node.mk 7 0 3 [] []) ()).2.1 = none ↔
      (Node.mk 7 0 3 [] [] : Node ℕ ℕ).unexplored_moves = []) ∧
    expand demoRules demoGen (Node.mk 7 0 3 [] []) () = (Node.mk 7 0 3 [] [], none, ()) :=
  ⟨(expand_empty_frontier_fails demoRules demoGen (Node.mk 7 0 3 [] []) ()).1,
    (expand_empty_frontier_fails demoRules demoGen (Node.mk 7 0 3 [] []) ()).2 rfl⟩

/-- Claim C5: the UCT score of a never-visited child is `+infinity`, which is
strictly greater than the UCT score of any visited child, whose score is the
finite value `average_evaluation + sqrt(2) * sqrt(ln(parentVisits) / childVisits)`;
hence `select`'s maximization always prefers an unvisited child over every
visited sibling. -/
theorem uct_unvisited_beats_visited (child visited parent : Node Pos Move)
    (h0 : child.visit_count = 0) (hv : 0 < visited.visit_count) :
    uct child parent = (⊤ : EReal) ∧
    uct visited parent = (((visited.average_evaluation : ℝ) + UCT_EXPLORATION_CONSTANT *
      Real.sqrt (Real.log (parent.visit_count : ℝ) / (visited.visit_count : ℝ)) : ℝ) : EReal) ∧
    uct visited parent < uct child parent := by
  have hne : ¬ visited.visit_count = 0 := Nat.pos_iff_ne_zero.mp hv
  refine ⟨by rw [uct, if_pos h0], by rw [uct, if_neg hne], ?_⟩
  simp only [uct]
  rw [if_pos h0, if_neg hne]
  exact EReal.coe_lt_top _

/-- Witness for C5 at concrete statistics. -/
theorem uct_unvisited_beats_visited_witness :
    uct (Node.mk 2 0 0 [] [] : Node ℕ ℕ) (Node.mk 0 0 5 [] []) = (⊤ : EReal) ∧
    uct (Node.mk 1 (1/2) 3 [] [] : Node ℕ ℕ) (Node.mk 0 0 5 [] []) <
      uct (Node.mk 2 0 0 [] [] : Node ℕ ℕ) (Node.mk 0 0 5 [] []) := by
  have h := uct_unvisited_beats_visited (Node.mk 2 0 0 [] [] : Node ℕ ℕ)
    (Node.mk 1 (1/2) 3 [] []) (Node.mk 0 0 5 [] []) rfl (by decide)
  exact ⟨h.1, h.2.2⟩

/-- Claim C9: `simulate` is pure with respect to the persistent search tree.
In the embedding this is exact by construction — `simulate` neither consumes
nor produces a tree, because the source plays the playout on a copy of the
node's board — and the residual content is that the playout reads nothing of
a node but its board: its result is invariant under arbitrary changes to the
node's `average_evaluation`, `visit_count`, `unexplored_moves` and `children`
fields, so no statistic or structure of any tree node can influence or be
influenced by it. -/
theorem simulate_pure (R : Rules Pos Move) (Gn : RandGen Move g) (fuel : ℕ)
    (t t' : Node Pos Move) (gen : g) (hb : t.board = t'.board) :
    simulate R Gn fuel t gen = simulate R Gn fuel t' gen := by
  simp [simulate, hb]

/-- Witness for C9: two nodes over the same demo board with completely
different statistics, frontiers and children produce identical playouts. -/
theorem simulate_pure_witness :
    simulate demoRules demoGen 6 (Node.mk 5 0 0 [] []) () =
      simulate demoRules demoGen 6
        (Node.mk 5 (3/4) 9 [2, 1] [(3, Node.mk 2 0 1 [] [])]) () :=
  simulate_pure demoRules demoGen 6 _ _ () rfl

/-- Dict assignment with a key that is not yet present appends the entry. -/
theorem insertChild_fresh [DecidableEq Move] {ch : List (Move × Node Pos Move)}
    {m : Move} (c : Node Pos Move) (h : ∀ mc ∈ ch, mc.1 ≠ m) :
    insertChild ch m c = ch ++ [(m, c)] := by
  have : ch.any (fun mc => mc.1 == m) = false := by
    simp only [List.any_eq_false]
    intro mc hmc
    simpa using h mc hmc
  simp [insertChild, this]

/-- Full specification of `expandAux` when the processed moves are pairwise
distinct and none of them is already a children-map key: one fresh child node
per processed move is appended, in process order, and the last created child
is keyed by the last processed move. -/
theorem expandAux_spec [DecidableEq Move] (R : Rules Pos Move) (Gn : RandGen Move g)
    (b : Pos) :
    ∀ (ms : List Move) (ch : List (Move × Node Pos Move))
      (last : Option (Move × Node Pos Move)) (gen : g),
      ms.Nodup → (∀ m ∈ ms, ∀ mc ∈ ch, mc.1 ≠ m) →
      ∃ newch,
        (expandAux R Gn b ms ch last gen).1 = ch ++ newch ∧
        newch.map Prod.fst = ms ∧
        (∀ p ∈ newch, p.2.board = R.applyMove b p.1 ∧ p.2.average_evaluation = 0 ∧
          p.2.visit_count = 0 ∧ p.2.children = [] ∧
          ∃ gs, p.2.unexplored_moves = (Gn.shuffle (R.legalMoves (R.applyMove b p.1)) gs).1) ∧
        (ms ≠ [] → ∃ mc ∈ newch, (expandAux R Gn b ms ch last gen).2.1 = some mc ∧
          some mc.1 = ms.getLast?) := by
  intro ms
  induction ms with
  | nil =>
    intro ch last gen _ _
    exact ⟨[], by simp [expandAux], by simp, by simp, fun h => absurd rfl h⟩
  | cons m ms ih =>
    intro ch last gen hnd hfresh
    have hndtail : ms.Nodup := (List.nodup_cons.mp hnd).2
    have hmnotin : m ∉ ms := (List.nodup_cons.mp hnd).1
    set c := mkNode R Gn (R.applyMove b m) gen with hc
    have hins : insertChild ch m c.1 = ch ++ [(m, c.1)] :=
      insertChild_fresh c.1 (fun mc hmc => hfresh m (by simp) mc hmc)
    have hfresh2 : ∀ m2 ∈ ms, ∀ mc ∈ ch ++ [(m, c.1)], mc.1 ≠ m2 := by
      intro m2 hm2 mc hmc
      rcases List.mem_append.mp hmc with h1 | h1
      · exact hfresh m2 (by simp [hm2]) mc h1
      · simp only [List.mem_singleton] at h1
        subst h1
        simp only []
        intro heq
        exact hmnotin (heq ▸ hm2)
    obtain ⟨newch2, ha, hb2, hfr2, hlast2⟩ :=
      ih (ch ++ [(m, c.1)]) (some (m, c.1)) c.2 hndtail hfresh2
    have hun : expandAux R Gn b (m :: ms) ch last gen =
        expandAux R Gn b ms (ch ++ [(m, c.1)]) (some (m, c.1)) c.2 := by
      rw [expandAux, ← hc, hins]
    refine ⟨(m, c.1) :: newch2, ?_, ?_, ?_, ?_⟩
    · rw [hun, ha, List.append_assoc]
      rfl
    · simp [hb2]
    · intro p hp
      rcases List.mem_cons.mp hp with h1 | h1
      · subst h1
        refine ⟨rfl, rfl, rfl, rfl, gen, rfl⟩
      · exact hfr2 p h1
    · intro _
      by_cases hms : ms = []
      · subst hms
        refine ⟨(m, c.1), by simp, ?_, by simp⟩
        rw [hun]
        simp [expandAux]
      · obtain ⟨mc, hmc, hv1, hv2⟩ := hlast2 hms
        refine ⟨mc, by simp [hmc], by rw [hun]; exact hv1, ?_⟩
        obtain ⟨m2, ms2, hms2⟩ := List.exists_cons_of_ne_nil hms
        rw [hv2, hms2, List.getLast?_cons_cons]

/-- Claim C1: `expand` on a node with a non-empty frontier of `m` pairwise
distinct moves (none already materialized as a child) pops moves until the
frontier is empty, creating exactly one new child per popped move — each
child's position being the node's position with that move applied, recorded in
the node's children map, which makes the node its parent — and returns the
last child created, which corresponds to the move at the head of the frontier
list (python's `list.pop()` removes from the tail, so the head is popped
last); the frontier is left empty. -/
theorem expand_drains_frontier [DecidableEq Move] (R : Rules Pos Move)
    (Gn : RandGen Move g) (b : Pos) (a : ℚ) (v : ℕ) (fr : List Move)
    (ch : List (Move × Node Pos Move)) (gen : g)
    (hfr : fr ≠ []) (hnd : fr.Nodup) (hfresh : ∀ m ∈ fr, ∀ mc ∈ ch, mc.1 ≠ m) :
    ∃ newch mc gen',
      expand R Gn (.mk b a v fr ch) gen = (.mk b a v [] (ch ++ newch), some mc, gen') ∧
      newch.length = fr.length ∧
      newch.map Prod.fst = fr.reverse ∧
      (∀ p ∈ newch, p.2.board = R.applyMove b p.1 ∧ p.2.average_evaluation = 0 ∧
        p.2.visit_count = 0 ∧ p.2.children = []) ∧
      mc ∈ newch ∧ some mc.1 = fr.head? := by
  obtain ⟨newch, ha, hkeys, hfrprops, hlast⟩ :=
    expandAux_spec R Gn b fr.reverse ch none gen (List.nodup_reverse.mpr hnd)
      (fun m hm mc hmc => hfresh m (List.mem_reverse.mp hm) mc hmc)
  obtain ⟨mc, hmc, hv1, hv2⟩ := hlast (by simpa using hfr)
  refine ⟨newch, mc, (expandAux R Gn b fr.reverse ch none gen).2.2, ?_, ?_, hkeys, ?_, hmc, ?_⟩
  · simp only [expand]
    rw [ha, hv1]
  · have := congrArg List.length hkeys
    simpa using this
  · intro p hp
    obtain ⟨h1, h2, h3, h4, _⟩ := hfrprops p hp
    exact ⟨h1, h2, h3, h4⟩
  · rw [hv2, List.getLast?_reverse]

/-- Witness for C1: expanding a demo node with frontier `[1, 2]` creates two
children and returns the child for move `1` (the head, popped last). -/
theorem expand_drains_frontier_witness :
    ∃ newch mc gen',
      expand demoRules demoGen (Node.mk 2 0 0 [1, 2] []) () =
        (Node.mk 2 0 0 [] ([] ++ newch), some mc, gen') ∧
      newch.length = [1, 2].length ∧
      newch.map Prod.fst = [1, 2].reverse ∧
      (∀ p ∈ newch, p.2.board = demoRules.applyMove 2 p.1 ∧
        p.2.average_evaluation = 0 ∧ p.2.visit_count = 0 ∧ p.2.children = []) ∧
      mc ∈ newch ∧ some mc.1 = [1, 2].head? :=
  expand_drains_frontier demoRules demoGen 2 0 0 [1, 2] [] () (by decide) (by decide)
    (by intro m _ mc hmc; cases hmc)

/-- Closed form for iterating the incremental running-mean update from an
arbitrary starting state: the result is the combined mean. -/
theorem bpStep_foldl : ∀ (ps : List ℚ) (a : ℚ) (k : ℕ), ps ≠ [] →
    ps.foldl bpStep (a, k) =
      ((a * (k : ℚ) + ps.sum) / ((k : ℚ) + (ps.length : ℚ)), k + ps.length) := by
  intro ps
  induction ps with
  | nil => intro a k h; exact absurd rfl h
  | cons p rest ih =>
    intro a k _
    simp only [List.foldl_cons]
    have hk1 : ((k : ℚ) + 1) ≠ 0 := by positivity
    by_cases hrest : rest = []
    · subst hrest
      simp only [List.foldl_nil, bpStep, List.sum_cons, List.sum_nil, List.length_cons,
        List.length_nil]
      norm_num
    · rw [ih _ _ hrest]
      simp only [bpStep, Prod.mk.injEq, List.sum_cons, List.length_cons]
      constructor
      · push_cast
        field_simp
        ring
      · omega

/-- The root of a backpropagated tree gets exactly the running-mean update and
the visit-count increment, whatever the path is; its board and frontier are
untouched. -/
theorem backpropagate_root_fields [DecidableEq Move] (payout : ℚ) (p : List Move)
    (t : Node Pos Move) :
    (backpropagate payout p t).average_evaluation =
      (t.average_evaluation * (t.visit_count : ℚ) + payout) / ((t.visit_count : ℚ) + 1) ∧
    (backpropagate payout p t).visit_count = t.visit_count + 1 ∧
    (backpropagate payout p t).board = t.board ∧
    (backpropagate payout p t).unexplored_moves = t.unexplored_moves := by
  obtain ⟨b, a, v, fr, ch⟩ := t
  cases p <;>
    simp [backpropagate, Node.average_evaluation, Node.visit_count, Node.board,
      Node.unexplored_moves]

/-- Backpropagating a payout along a path `p ++ q` applies the running-mean
update to the node addressed by every prefix `p` of the path (the addressed
node itself and each of its ancestors up to the root). -/
theorem nodeAt_backpropagate [DecidableEq Move] (payout : ℚ) :
    ∀ (p : List Move) (t : Node Pos Move) (q : List Move) (s : Node Pos Move),
      nodeAt t p = some s →
      ∃ s2, nodeAt (backpropagate payout (p ++ q) t) p = some s2 ∧
        s2.average_evaluation =
          (s.average_evaluation * (s.visit_count : ℚ) + payout) /
            ((s.visit_count : ℚ) + 1) ∧
        s2.visit_count = s.visit_count + 1 := by
  intro p
  induction p with
  | nil =>
    intro t q s h
    simp only [nodeAt, Option.some.injEq] at h
    subst h
    obtain ⟨h1, h2, _, _⟩ := backpropagate_root_fields payout ([] ++ q) t
    exact ⟨backpropagate payout ([] ++ q) t, rfl, h1, h2⟩
  | cons m p' ih =>
    intro t q s h
    obtain ⟨b, a, v, fr, ch⟩ := t
    simp only [nodeAt, Node.children] at h
    cases hfind : List.find? (fun mc => mc.1 == m) ch with
    | none => rw [hfind] at h; cases h
    | some mc =>
      rw [hfind] at h
      have hkey : mc.1 = m := by
        have := List.find?_some hfind
        simpa using this
      obtain ⟨s2, hs2, hs2a, hs2v⟩ := ih mc.2 q s h
      refine ⟨s2, ?_, hs2a, hs2v⟩
      have hcons : ((m :: p') ++ q) = m :: (p' ++ q) := rfl
      rw [hcons]
      simp only [backpropagate, nodeAt, Node.children]
      have hmapfind :
          List.find? (fun mc => mc.1 == m)
            (ch.map (fun mc => if mc.1 = m then (mc.1, backpropagate payout (p' ++ q) mc.2)
              else mc)) =
          some (mc.1, backpropagate payout (p' ++ q) mc.2) := by
        rw [List.find?_map]
        have hpred : ((fun mc => mc.1 == m) ∘
            (fun mc : Move × Node Pos Move =>
              if mc.1 = m then (mc.1, backpropagate payout (p' ++ q) mc.2) else mc)) =
            (fun mc => mc.1 == m) := by
          funext x
          by_cases hx : x.1 = m <;> simp [hx]
        rw [hpred, hfind]
        simp [hkey]
      rw [hmapfind]
      exact hs2

/-- Claim C4: after `k` backpropagations the visit count equals `k` and the
average evaluation equals the arithmetic mean of the `k` payouts — the
incremental update `(average * visits + payout) / (visits + 1)` iterated from
the initial `(0, 0)` state coincides with a naive sum-then-divide
recomputation (exactly, over the rationals) — and `backpropagate` applies this
very update to the addressed node and to each of its ancestors up to the
parentless root (every prefix of the root-directed path). -/
theorem backpropagate_running_mean {Pos Move : Type} [DecidableEq Move] (ps : List ℚ) :
    (ps.foldl bpStep (0, 0)).2 = ps.length ∧
    (ps.foldl bpStep (0, 0)).1 = ps.sum / (ps.length : ℚ) ∧
    ∀ (payout : ℚ) (t : Node Pos Move) (p q : List Move) (s : Node Pos Move),
      nodeAt t p = some s →
      ∃ s2, nodeAt (backpropagate payout (p ++ q) t) p = some s2 ∧
        (s2.average_evaluation, s2.visit_count) =
          bpStep (s.average_evaluation, s.visit_count) payout := by
  refine ⟨?_, ?_, ?_⟩
  · by_cases hps : ps = []
    · subst hps; rfl
    · rw [bpStep_foldl ps 0 0 hps]
      simp
  · by_cases hps : ps = []
    · subst hps; simp
    · rw [bpStep_foldl ps 0 0 hps]
      simp
  · intro payout t p q s h
    obtain ⟨s2, h1, h2, h3⟩ := nodeAt_backpropagate payout p t q s h
    exact ⟨s2, h1, by rw [bpStep, Prod.mk.injEq]; exact ⟨h2, h3⟩⟩

/-- Witness for C4: three payouts `1, 0, 1/2` yield visit count `3` and mean
`1/2`, and one concrete backpropagation updates a node's pair exactly by
`bpStep`. -/
theorem backpropagate_running_mean_witness :
    (([1, 0, 1/2] : List ℚ).foldl bpStep (0, 0)).2 = ([1, 0, 1/2] : List ℚ).length ∧
    (([1, 0, 1/2] : List ℚ).foldl bpStep (0, 0)).1 =
      ([1, 0, 1/2] : List ℚ).sum / (([1, 0, 1/2] : List ℚ).length : ℚ) ∧
    ∃ s2, nodeAt (backpropagate 1 ([] ++ []) (Node.mk 2 (1/2) 3 [] [] : Node ℕ ℕ)) [] =
        some s2 ∧
      (s2.average_evaluation, s2.visit_count) = bpStep (1/2, 3) 1 := by
  obtain ⟨h1, h2, h3⟩ := @backpropagate_running_mean ℕ ℕ _ [1, 0, 1/2]
  exact ⟨h1, h2, h3 1 (Node.mk 2 (1/2) 3 [] []) [] [] (Node.mk 2 (1/2) 3 [] []) rfl⟩

/-- Children-map keys are pairwise distinct at every node of the tree (true of
the source's python dicts by construction). -/
inductive KeysNodup : Node Pos Move → Prop where
  | mk (b : Pos) (a : ℚ) (v : ℕ) (fr : List Move) (ch : List (Move × Node Pos Move)) :
      (ch.map Prod.fst).Nodup → (∀ mc ∈ ch, KeysNodup mc.2) →
      KeysNodup (.mk b a v fr ch)

/-- Destructor for `KeysNodup`. -/
theorem keysNodup_elim {b : Pos} {a : ℚ} {v : ℕ} {fr : List Move}
    {ch : List (Move × Node Pos Move)}
    (h : KeysNodup (Node.mk b a v fr ch : Node Pos Move)) :
    (ch.map Prod.fst).Nodup ∧ ∀ mc ∈ ch, KeysNodup mc.2 := by
  cases h with
  | mk _ _ _ _ _ h1 h2 => exact ⟨h1, h2⟩

/-- In a children list with pairwise-distinct keys, looking up the key of a
member finds exactly that member. -/
theorem find?_of_keys_nodup [DecidableEq Move] :
    ∀ (ch : List (Move × Node Pos Move)) (mc : Move × Node Pos Move),
      (ch.map Prod.fst).Nodup → mc ∈ ch →
      ch.find? (fun x => x.1 == mc.1) = some mc := by
  intro ch
  induction ch with
  | nil => intro mc _ h; cases h
  | cons x rest ih =>
    intro mc hnd hmem
    have hnd2 : (x.1 :: rest.map Prod.fst).Nodup := by simpa using hnd
    rcases List.mem_cons.mp hmem with h1 | h1
    · subst h1
      exact List.find?_cons_of_pos _ (by simp)
    · have hx : ¬ (x.1 == mc.1) = true := by
        simp only [beq_iff_eq]
        intro heq
        exact (List.nodup_cons.mp hnd2).1
          (heq ▸ List.mem_map_of_mem Prod.fst h1)
      rw [List.find?_cons_of_neg (p := fun y => y.1 == mc.1) (a := x) rest hx]
      exact ih mc (List.nodup_cons.mp hnd2).2 h1

/-- Bounded-size version of the selection-descent specification, for strong
induction: the returned node is a leaf or terminal; a stopping input is
returned unchanged with an empty path; and (under distinct children keys) the
returned path addresses the returned node while every strictly shorter prefix
of it addresses a node that is neither a leaf nor terminal. -/
theorem selectAux_spec_aux [DecidableEq Move] :
    ∀ (n : ℕ) (t : Node Pos Move), sizeOf t ≤ n →
      ((selectAux t).2.is_leaf || (selectAux t).2.is_terminal) = true ∧
      ((t.is_leaf || t.is_terminal) = true → selectAux t = ([], t)) ∧
      (KeysNodup t →
        nodeAt t (selectAux t).1 = some (selectAux t).2 ∧
        ∀ p q s, (selectAux t).1 = p ++ q → q ≠ [] → nodeAt t p = some s →
          (s.is_leaf || s.is_terminal) = false) := by
  intro n
  induction n with
  | zero =>
    intro t hle
    exfalso
    obtain ⟨b, a, v, fr, ch⟩ := t
    simp [Node.mk.sizeOf_spec] at hle
  | succ n ih =>
    intro t hle
    by_cases hstop : (t.is_leaf || t.is_terminal) = true
    · have hsel : selectAux t = ([], t) := by rw [selectAux, if_pos hstop]
      rw [hsel]
      refine ⟨hstop, fun _ => rfl, fun _ => ⟨rfl, ?_⟩⟩
      intro p q s hpq hq _
      obtain ⟨-, hq2⟩ := List.append_eq_nil.mp hpq.symm
      exact absurd hq2 hq
    · obtain ⟨b, a, v, fr, ch⟩ := t
      have hfr : fr = [] := by
        by_contra hfr2
        exact hstop (by simp [Node.is_leaf, Node.unexplored_moves,
          List.length_eq_zero, hfr2])
      subst hfr
      have hch : ch ≠ [] := by
        intro hch2
        subst hch2
        exact hstop (by simp [Node.is_terminal, Node.unexplored_moves, Node.children])
      obtain ⟨c, cs, rfl⟩ := List.exists_cons_of_ne_nil hch
      have hunf : selectAux (Node.mk b a v [] (c :: cs)) =
          ((maxByKey (fun mc => uct mc.2 (Node.mk b a v [] (c :: cs))) c cs).1 ::
            (selectAux (maxByKey (fun mc => uct mc.2 (Node.mk b a v [] (c :: cs))) c cs).2).1,
           (selectAux (maxByKey (fun mc => uct mc.2 (Node.mk b a v [] (c :: cs))) c cs).2).2) := by
        rw [selectAux]
        simp only [if_neg hstop, Node.children]
      set best := maxByKey (fun mc => uct mc.2 (Node.mk b a v [] (c :: cs))) c cs with hbest
      have hmem : best ∈ c :: cs := maxByKey_mem _ cs c
      have hsize : sizeOf best.2 ≤ n := by
        have := @sizeOf_child_lt Pos Move best b a v [] (c :: cs) hmem
        omega
      obtain ⟨ih1, _, ih3⟩ := ih best.2 hsize
      refine ⟨by rw [hunf]; exact ih1, fun hstop2 => absurd hstop2 hstop, ?_⟩
      intro hkn
      obtain ⟨hknkeys, hknch⟩ := keysNodup_elim hkn
      have hfind : (c :: cs).find? (fun x => x.1 == best.1) = some best :=
        find?_of_keys_nodup (c :: cs) best hknkeys hmem
      obtain ⟨ih3a, ih3b⟩ := ih3 (hknch best hmem)
      constructor
      · rw [hunf]
        simp only [nodeAt, Node.children]
        rw [hfind]
        exact ih3a
      · intro p q s hpq hq hns
        rw [hunf] at hpq
        cases p with
        | nil =>
          simp only [nodeAt, Option.some.injEq] at hns
          subst hns
          simpa using hstop
        | cons m p' =>
          simp only [List.cons_append, List.cons.injEq] at hpq
          obtain ⟨hm, hrest⟩ := hpq
          subst hm
          simp only [nodeAt, Node.children] at hns
          rw [hfind] at hns
          exact ih3b p' q s hrest hq hns

/-- Claim C3: `select` returns a node that is a leaf (non-empty frontier) or
terminal (empty frontier, no children) — in particular it never returns a node
with children and an empty frontier, for the input node as for any other — it
returns a stopping input unchanged, and (when children keys are distinct, as
for python dicts) it stops at the first node on its descent path satisfying
the predicate: the returned path addresses the returned node and every node
strictly before it on the path is neither a leaf nor terminal. -/
theorem select_stops_at_first [DecidableEq Move] (t : Node Pos Move) :
    ((select t).is_leaf || (select t).is_terminal) = true ∧
    ((t.is_leaf || t.is_terminal) = true → select t = t) ∧
    (KeysNodup t →
      nodeAt t (selectPath t) = some (select t) ∧
      ∀ p q s, selectPath t = p ++ q → q ≠ [] → nodeAt t p = some s →
        (s.is_leaf || s.is_terminal) = false) := by
  obtain ⟨h1, h2, h3⟩ := selectAux_spec_aux (sizeOf t) t le_rfl
  refine ⟨h1, fun hs => ?_, h3⟩
  rw [select, h2 hs]

/-- Witness for C3 on a concrete two-level demo tree: the internal root
(empty frontier, one child) is descended past, the returned node is the leaf
child, the path addresses it, and the root itself — strictly before the
returned node on the path — satisfies neither stopping predicate. -/
theorem select_stops_at_first_witness :
    ((select (Node.mk 2 0 1 [] [(1, Node.mk 1 0 0 [1] [])] : Node ℕ ℕ)).is_leaf ||
      (select (Node.mk 2 0 1 [] [(1, Node.mk 1 0 0 [1] [])] : Node ℕ ℕ)).is_terminal) = true ∧
    nodeAt (Node.mk 2 0 1 [] [(1, Node.mk 1 0 0 [1] [])] : Node ℕ ℕ)
      (selectPath (Node.mk 2 0 1 [] [(1, Node.mk 1 0 0 [1] [])])) =
      some (select (Node.mk 2 0 1 [] [(1, Node.mk 1 0 0 [1] [])])) ∧
    ((Node.mk 2 0 1 [] [(1, Node.mk 1 0 0 [1] [])] : Node ℕ ℕ).is_leaf ||
      (Node.mk 2 0 1 [] [(1, Node.mk 1 0 0 [1] [])] : Node ℕ ℕ).is_terminal) = false := by
  have hkn : KeysNodup (Node.mk 2 0 1 [] [(1, Node.mk 1 0 0 [1] [])] : Node ℕ ℕ) := by
    refine KeysNodup.mk _ _ _ _ _ (by simp) ?_
    intro mc hmc
    simp only [List.mem_singleton] at hmc
    subst hmc
    exact KeysNodup.mk _ _ _ _ _ (by simp) (by intro mc hmc; cases hmc)
  have hsel : selectAux (Node.mk 2 0 1 [] [(1, Node.mk 1 0 0 [1] [])] : Node ℕ ℕ) =
      ([1], Node.mk 1 0 0 [1] []) := by
    rw [selectAux]
    simp only [Node.is_leaf, Node.is_terminal, Node.unexplored_moves, Node.children,
      List.length_nil, List.length_cons]
    norm_num [maxByKey]
    rw [selectAux]
    simp [Node.is_leaf, Node.unexplored_moves]
  obtain ⟨h1, _, h3⟩ :=
    select_stops_at_first (Node.mk 2 0 1 [] [(1, Node.mk 1 0 0 [1] [])] : Node ℕ ℕ)
  obtain ⟨h3a, h3b⟩ := h3 hkn
  refine ⟨h1, h3a, ?_⟩
  exact h3b [] [1] _ (by rw [selectPath, hsel]; rfl) (by simp) rfl

/-- One loop iteration on a terminal node (empty frontier, no children):
`select` returns the node itself, the expand branch is skipped, the playout
immediately reports the known outcome payout, and backpropagation updates the
node's statistics — no special case stops the iteration. -/
theorem mctsIter_terminal [DecidableEq Move] (R : Rules Pos Move) (Gn : RandGen Move g)
    (fuel : ℕ) (b : Pos) (a : ℚ) (k : ℕ) (gen : g) (w : Option Bool)
    (hout : R.outcome b = some w) :
    mctsIter R Gn fuel (Node.mk b a k [] []) gen =
      some (Node.mk b ((a * (k : ℚ) + payouts w) / ((k : ℚ) + 1)) (k + 1) [] [], gen) := by
  have hsel : selectAux (Node.mk b a k [] [] : Node Pos Move) = ([], Node.mk b a k [] []) := by
    rw [selectAux]
    simp [Node.is_leaf, Node.is_terminal, Node.unexplored_moves, Node.children]
  have hsim : simulate R Gn fuel (Node.mk b a k [] [] : Node Pos Move) gen =
      (some (payouts w), gen) := by
    cases fuel <;> simp [simulate, simulateBoard, Node.board, hout]
  simp only [mctsIter, hsel, hsim, Node.unexplored_moves, List.length_nil]
  norm_num
  simp [backpropagate]

/-- Iterating the loop on a terminal node whose mean already equals the
terminal payout leaves the mean fixed and adds one visit per iteration. -/
theorem runLoop_terminal_aux [DecidableEq Move] (R : Rules Pos Move)
    (Gn : RandGen Move g) (fuel : ℕ) (b : Pos) (w : Option Bool)
    (hout : R.outcome b = some w) :
    ∀ (n k : ℕ) (gen : g),
      runLoop R Gn fuel n (Node.mk b (payouts w) k [] []) gen =
        some (Node.mk b (payouts w) (k + n) [] [], gen) := by
  intro n
  induction n with
  | zero => intro k gen; simp [runLoop]
  | succ n ihn =>
    intro k gen
    have havg : (payouts w * (k : ℚ) + payouts w) / ((k : ℚ) + 1) = payouts w := by
      have hk : ((k : ℚ) + 1) ≠ 0 := by positivity
      field_simp
      ring
    rw [runLoop, mctsIter_terminal R Gn fuel b (payouts w) k gen w hout]
    simp only [havg]
    rw [ihn (k + 1) gen]
    have : k + 1 + n = k + (n + 1) := by omega
    rw [this]

/-- Claim C6 is violated by the code: the searcher does NOT special-case a
terminal root.  When the root position is terminal (no legal moves, known
outcome `w`), each of the `n` requested iterations still runs select →
(no expand) → simulate → backpropagate: selection returns the terminal root,
the playout reports the known payout, and backpropagation increments the
root.  After the loop the root's visit count is `n` — not `0` as the claimed
zero-iteration special case would give — and its mean is the terminal
payout. -/
theorem terminal_root_runs_all_iterations [DecidableEq Move] (R : Rules Pos Move)
    (Gn : RandGen Move g) (fuel : ℕ) (b : Pos) (w : Option Bool) (gen0 : g) (n : ℕ)
    (hlm : R.legalMoves b = []) (hout : R.outcome b = some w)
    (hsh : (Gn.shuffle [] gen0).1 = []) (hn : 0 < n) :
    ∃ tfin, runLoop R Gn fuel n (mkNode R Gn b gen0).1 (mkNode R Gn b gen0).2 =
        some (tfin, (mkNode R Gn b gen0).2) ∧
      tfin.visit_count = n ∧ tfin.average_evaluation = payouts w := by
  have hroot : (mkNode R Gn b gen0).1 = Node.mk b 0 0 [] [] := by
    simp [mkNode, hlm, hsh]
  obtain ⟨n', rfl⟩ : ∃ n', n = n' + 1 := ⟨n - 1, by omega⟩
  refine ⟨Node.mk b (payouts w) (n' + 1) [] [], ?_, rfl, rfl⟩
  rw [hroot, runLoop, mctsIter_terminal R Gn fuel b 0 0 (mkNode R Gn b gen0).2 w hout]
  have h0 : ((0 : ℚ) * ((0 : ℕ) : ℚ) + payouts w) / (((0 : ℕ) : ℚ) + 1) = payouts w := by
    norm_num
  simp only [h0]
  rw [runLoop_terminal_aux R Gn fuel b w hout n' 1 (mkNode R Gn b gen0).2]
  have : 1 + n' = n' + 1 := by omega
  rw [this]

/-- Witness for C6's refutation: on the demo game with the terminal root `0`
and a budget of three iterations, the loop runs all three, leaving the root
with visit count `3` and mean equal to the draw payout. -/
theorem terminal_root_runs_all_iterations_witness :
    ∃ tfin, runLoop demoRules demoGen 5 3 (mkNode demoRules demoGen 0 ()).1
        (mkNode demoRules demoGen 0 ()).2 = some (tfin, (mkNode demoRules demoGen 0 ()).2) ∧
      tfin.visit_count = 3 ∧ tfin.average_evaluation = payouts none :=
  terminal_root_runs_all_iterations demoRules demoGen 5 0 none () 3 rfl rfl rfl
    (by norm_num)

/-- Claim C2: in every iteration of the search loop, the node returned by
`select` is expanded if and only if it is non-terminal AND has been visited
before (`visit_count > 0`); otherwise the playout runs directly on the
selected node.  Since `select` only returns leaf-or-terminal nodes,
"non-terminal" coincides with the code's `len(node.unexplored_moves) > 0`
test.  In either case exactly one playout is performed — on the last expanded
child resp. on the selected node itself — and exactly its payout is
backpropagated from that node (along its root-directed path). -/
theorem mcts_iteration_expand_iff [DecidableEq Move] (R : Rules Pos Move)
    (Gn : RandGen Move g) (fuel : ℕ) (t : Node Pos Move) (gen : g) :
    ((¬ (selectAux t).2.is_terminal = true ∧ 0 < (selectAux t).2.visit_count) →
      ∃ ex mc gen2, expand R Gn (selectAux t).2 gen = (ex, some mc, gen2) ∧
        mctsIter R Gn fuel t gen =
          (match (simulate R Gn fuel mc.2 gen2).1 with
           | some payout =>
             some (backpropagate payout ((selectAux t).1 ++ [mc.1])
               (replaceAt ex (selectAux t).1 t), (simulate R Gn fuel mc.2 gen2).2)
           | none => none)) ∧
    (((selectAux t).2.is_terminal = true ∨ (selectAux t).2.visit_count = 0) →
      mctsIter R Gn fuel t gen =
        (match (simulate R Gn fuel (selectAux t).2 gen).1 with
         | some payout => some (backpropagate payout (selectAux t).1 t,
             (simulate R Gn fuel (selectAux t).2 gen).2)
         | none => none)) := by
  have hstop := (selectAux_spec_aux (sizeOf t) t le_rfl).1
  constructor
  · rintro ⟨hnt, hv⟩
    have hleaf : (selectAux t).2.is_leaf = true := by
      rcases Bool.or_eq_true_iff.mp hstop with h | h
      · exact h
      · exact absurd h hnt
    have hlen : 0 < (selectAux t).2.unexplored_moves.length := by
      have := hleaf
      rw [Node.is_leaf] at this
      simp only [bne_iff_ne, ne_eq] at this
      omega
    have hne : (selectAux t).2.unexplored_moves ≠ [] := by
      intro h
      rw [h] at hlen
      simp at hlen
    have hsome : (expand R Gn (selectAux t).2 gen).2.1 ≠ none := by
      intro h
      exact hne ((expand_none_iff R Gn (selectAux t).2 gen).mp h)
    rcases hexp : expand R Gn (selectAux t).2 gen with ⟨ex, olast, gen2⟩
    cases olast with
    | none => rw [hexp] at hsome; simp at hsome
    | some mc =>
      refine ⟨ex, mc, gen2, rfl, ?_⟩
      simp only [mctsIter, hexp, if_pos (And.intro hlen hv)]
  · intro h
    have hcond : ¬ (0 < (selectAux t).2.unexplored_moves.length ∧
        0 < (selectAux t).2.visit_count) := by
      rcases h with h | h
      · intro hc
        rw [Node.is_terminal] at h
        obtain ⟨h1, -⟩ := Bool.and_eq_true_iff.mp h
        simp only [beq_iff_eq] at h1
        omega
      · intro hc
        omega
    simp only [mctsIter, if_neg hcond]

/-- Witness for C2 at the demo root with frontier `[1]` and zero visits: the
first-visit-no-expand policy applies, so the iteration simulates the selected
node directly and backpropagates along its (empty) path. -/
theorem mcts_iteration_expand_iff_witness :
    mctsIter demoRules demoGen 5 (Node.mk 1 0 0 [1] []) () =
      (match (simulate demoRules demoGen 5
          (selectAux (Node.mk 1 0 0 [1] [] : Node ℕ ℕ)).2 ()).1 with
       | some payout =>
         some (backpropagate payout (selectAux (Node.mk 1 0 0 [1] [] : Node ℕ ℕ)).1
             (Node.mk 1 0 0 [1] []),
           (simulate demoRules demoGen 5
             (selectAux (Node.mk 1 0 0 [1] [] : Node ℕ ℕ)).2 ()).2)
       | none => none) := by
  have hsel : selectAux (Node.mk 1 0 0 [1] [] : Node ℕ ℕ) = ([], Node.mk 1 0 0 [1] []) := by
    rw [selectAux]
    simp [Node.is_leaf, Node.unexplored_moves]
  exact (mcts_iteration_expand_iff demoRules demoGen 5 (Node.mk 1 0 0 [1] []) ()).2
    (Or.inr (by rw [hsel]; rfl))

/-- Combined structural and numeric invariant of a search tree, holding at
every node: the frontier moves and the children keys are pairwise distinct
(legal moves are distinct and each is materialized as a child at most once),
every child's visit count is at most its parent's, and the running mean lies
in the unit interval. -/
inductive TreeInv : Node Pos Move → Prop where
  | mk (b : Pos) (a : ℚ) (v : ℕ) (fr : List Move) (ch : List (Move × Node Pos Move)) :
      (fr ++ ch.map Prod.fst).Nodup →
      (∀ mc ∈ ch, mc.2.visit_count ≤ v) →
      0 ≤ a → a ≤ 1 →
      (∀ mc ∈ ch, TreeInv mc.2) →
      TreeInv (.mk b a v fr ch)

/-- Destructor for `TreeInv`. -/
theorem treeInv_elim {b : Pos} {a : ℚ} {v : ℕ} {fr : List Move}
    {ch : List (Move × Node Pos Move)}
    (h : TreeInv (Node.mk b a v fr ch : Node Pos Move)) :
    (fr ++ ch.map Prod.fst).Nodup ∧ (∀ mc ∈ ch, mc.2.visit_count ≤ v) ∧
    0 ≤ a ∧ a ≤ 1 ∧ (∀ mc ∈ ch, TreeInv mc.2) := by
  cases h with
  | mk _ _ _ _ _ h1 h2 h3 h4 h5 => exact ⟨h1, h2, h3, h4, h5⟩

/-- The invariant entails distinct children keys at every node. -/
theorem treeInv_keysNodup {t : Node Pos Move} (h : TreeInv t) : KeysNodup t := by
  induction h with
  | mk b a v fr ch h1 _ _ _ _ ih =>
    exact KeysNodup.mk b a v fr ch (h1.of_append_right) ih

/-- Membership in `subtreesList` unfolds to membership in a child's subtrees. -/
theorem mem_subtreesList {s : Node Pos Move} :
    ∀ {ch : List (Move × Node Pos Move)},
      s ∈ subtreesList ch ↔ ∃ mc ∈ ch, s ∈ subtrees mc.2 := by
  intro ch
  induction ch with
  | nil => simp [subtreesList]
  | cons mc rest ih =>
    rw [subtreesList]
    simp only [List.mem_append, ih, List.mem_cons]
    constructor
    · rintro (h | ⟨mc2, hmc2, hs⟩)
      · exact ⟨mc, Or.inl rfl, h⟩
      · exact ⟨mc2, Or.inr hmc2, hs⟩
    · rintro ⟨mc2, hmc2 | hmc2, hs⟩
      · subst hmc2; exact Or.inl hs
      · exact Or.inr ⟨mc2, hmc2, hs⟩

/-- Membership in `subtrees`: the tree itself or a subtree of a child. -/
theorem mem_subtrees {s : Node Pos Move} {b : Pos} {a : ℚ} {v : ℕ} {fr : List Move}
    {ch : List (Move × Node Pos Move)} :
    s ∈ subtrees (Node.mk b a v fr ch : Node Pos Move) ↔
      s = Node.mk b a v fr ch ∨ ∃ mc ∈ ch, s ∈ subtrees mc.2 := by
  rw [subtrees]
  simp only [List.mem_cons, mem_subtreesList]

/-- Every node of an invariant tree satisfies the invariant. -/
theorem treeInv_of_mem_subtrees :
    ∀ (n : ℕ) (t : Node Pos Move), sizeOf t ≤ n → TreeInv t →
      ∀ s ∈ subtrees t, TreeInv s := by
  intro n
  induction n with
  | zero =>
    intro t hle
    exfalso
    obtain ⟨b, a, v, fr, ch⟩ := t
    simp [Node.mk.sizeOf_spec] at hle
  | succ n ih =>
    intro t hle hinv s hs
    obtain ⟨b, a, v, fr, ch⟩ := t
    rcases mem_subtrees.mp hs with h | ⟨mc, hmc, hsub⟩
    · subst h; exact hinv
    · have hsz : sizeOf mc.2 ≤ n := by
        have := @sizeOf_child_lt Pos Move mc b a v fr ch hmc
        omega
      exact ih mc.2 hsz ((treeInv_elim hinv).2.2.2.2 mc hmc) s hsub

/-- A node addressed by a path in an invariant tree satisfies the invariant. -/
theorem nodeAt_treeInv [DecidableEq Move] :
    ∀ (p : List Move) (t : Node Pos Move) (s : Node Pos Move),
      TreeInv t → nodeAt t p = some s → TreeInv s := by
  intro p
  induction p with
  | nil =>
    intro t s hinv h
    simp only [nodeAt, Option.some.injEq] at h
    subst h; exact hinv
  | cons m p' ih =>
    intro t s hinv h
    obtain ⟨b, a, v, fr, ch⟩ := t
    simp only [nodeAt, Node.children] at h
    cases hfind : List.find? (fun mc => mc.1 == m) ch with
    | none => rw [hfind] at h; cases h
    | some mc =>
      rw [hfind] at h
      exact ih mc.2 s
        ((treeInv_elim hinv).2.2.2.2 mc (List.mem_of_find?_eq_some hfind)) h

/-- In a list with pairwise-distinct keys, two members with the same key are
equal. -/
theorem eq_of_keys_nodup :
    ∀ (ch : List (Move × Node Pos Move)) (x y : Move × Node Pos Move),
      (ch.map Prod.fst).Nodup → x ∈ ch → y ∈ ch → x.1 = y.1 → x = y := by
  intro ch
  induction ch with
  | nil => intro x y _ hx; cases hx
  | cons z rest ih =>
    intro x y hnd hx hy hkey
    have hnd2 : (z.1 :: rest.map Prod.fst).Nodup := by simpa using hnd
    have hz : z.1 ∉ rest.map Prod.fst := (List.nodup_cons.mp hnd2).1
    rcases List.mem_cons.mp hx with hx1 | hx1 <;> rcases List.mem_cons.mp hy with hy1 | hy1
    · rw [hx1, hy1]
    · subst hx1
      exact absurd (hkey ▸ List.mem_map_of_mem Prod.fst hy1) hz
    · subst hy1
      exact absurd (hkey ▸ List.mem_map_of_mem Prod.fst hx1) hz
    · exact ih x y (List.nodup_cons.mp hnd2).2 hx1 hy1 hkey

/-- Any payout `simulate`'s playout can produce is one of the three values of
the `payouts` dict. -/
theorem simulateBoard_payout_range (R : Rules Pos Move) (Gn : RandGen Move g) :
    ∀ (fuel : ℕ) (b : Pos) (gen : g) (q : ℚ),
      (simulateBoard R Gn fuel b gen).1 = some q → q = 0 ∨ q = 1/2 ∨ q = 1 := by
  intro fuel
  induction fuel with
  | zero =>
    intro b gen q h
    simp only [simulateBoard] at h
    cases ho : R.outcome b with
    | none => rw [ho] at h; cases h
    | some w =>
      rw [ho] at h
      simp only [Option.some.injEq] at h
      subst h
      rcases w with _ | wb
      · exact Or.inr (Or.inl rfl)
      · cases wb
        · exact Or.inl rfl
        · exact Or.inr (Or.inr rfl)
  | succ f ih =>
    intro b gen q h
    simp only [simulateBoard] at h
    cases ho : R.outcome b with
    | some w =>
      rw [ho] at h
      simp only [Option.some.injEq] at h
      subst h
      rcases w with _ | wb
      · exact Or.inr (Or.inl rfl)
      · cases wb
        · exact Or.inl rfl
        · exact Or.inr (Or.inr rfl)
    | none =>
      rw [ho] at h
      cases hg : (R.legalMoves b).get?
          ((Gn.choose (R.legalMoves b).length gen).1 % (R.legalMoves b).length) with
      | none => rw [hg] at h; cases h
      | some m =>
        rw [hg] at h
        exact ih (R.applyMove b m) (Gn.choose (R.legalMoves b).length gen).2 q h

/-- Key-preserving children transformations keep the key list unchanged. -/
theorem map_fst_of_key_preserving {ch : List (Move × Node Pos Move)}
    (f : Move × Node Pos Move → Move × Node Pos Move) (hf : ∀ x, (f x).1 = x.1) :
    (ch.map f).map Prod.fst = ch.map Prod.fst := by
  rw [List.map_map]
  exact List.map_congr_left (fun x _ => hf x)

/-- A freshly created node satisfies the invariant, provided legal-move lists
have no duplicates and shuffling permutes. -/
theorem mkNode_treeInv (R : Rules Pos Move) (Gn : RandGen Move g)
    (Hlm : ∀ p, (R.legalMoves p).Nodup)
    (Hsh : ∀ (l : List Move) (gen : g), ((Gn.shuffle l gen).1).Perm l)
    (board : Pos) (gen : g) : TreeInv (mkNode R Gn board gen).1 := by
  refine TreeInv.mk _ _ _ _ _ ?_ (by intro mc hmc; cases hmc) le_rfl zero_le_one
    (by intro mc hmc; cases hmc)
  simp only [List.map_nil, List.append_nil]
  exact ((Hsh (R.legalMoves board) gen).nodup_iff).mpr (Hlm board)

/-- Arithmetic core of the running-mean update: the new mean stays in the unit
interval when the old mean and the payout are in it. -/
theorem bpStep_mem_unit {a payout : ℚ} {v : ℕ} (ha0 : 0 ≤ a) (ha1 : a ≤ 1)
    (hp0 : 0 ≤ payout) (hp1 : payout ≤ 1) :
    0 ≤ (a * (v : ℚ) + payout) / ((v : ℚ) + 1) ∧
    (a * (v : ℚ) + payout) / ((v : ℚ) + 1) ≤ 1 := by
  have hv : (0 : ℚ) ≤ (v : ℚ) := Nat.cast_nonneg v
  have hpos : (0 : ℚ) < (v : ℚ) + 1 := by linarith
  constructor
  · apply div_nonneg _ (le_of_lt hpos)
    nlinarith
  · rw [div_le_one hpos]
    nlinarith

/-- Backpropagation preserves the invariant for any path, provided the payout
lies in the unit interval. -/
theorem backpropagate_preserves_inv [DecidableEq Move] {payout : ℚ}
    (hp0 : 0 ≤ payout) (hp1 : payout ≤ 1) :
    ∀ (p : List Move) (t : Node Pos Move), TreeInv t →
      TreeInv (backpropagate payout p t) := by
  intro p
  induction p with
  | nil =>
    intro t hinv
    obtain ⟨b, a, v, fr, ch⟩ := t
    obtain ⟨h1, h2, h3, h4, h5⟩ := treeInv_elim hinv
    obtain ⟨hm0, hm1⟩ := bpStep_mem_unit h3 h4 hp0 hp1 (v := v)
    exact TreeInv.mk _ _ _ _ _ h1 (fun mc hmc => Nat.le_succ_of_le (h2 mc hmc))
      hm0 hm1 h5
  | cons m p' ih =>
    intro t hinv
    obtain ⟨b, a, v, fr, ch⟩ := t
    obtain ⟨h1, h2, h3, h4, h5⟩ := treeInv_elim hinv
    obtain ⟨hm0, hm1⟩ := bpStep_mem_unit h3 h4 hp0 hp1 (v := v)
    simp only [backpropagate]
    have hkeys : ((ch.map (fun mc => if mc.1 = m then
        (mc.1, backpropagate payout p' mc.2) else mc)).map Prod.fst) = ch.map Prod.fst :=
      map_fst_of_key_preserving _ (by intro x; by_cases hx : x.1 = m <;> simp [hx])
    refine TreeInv.mk _ _ _ _ _ (by rw [hkeys]; exact h1) ?_ hm0 hm1 ?_
    · intro mc hmc
      obtain ⟨x, hx, hxeq⟩ := List.mem_map.mp hmc
      by_cases hxm : x.1 = m
      · rw [if_pos hxm] at hxeq
        subst hxeq
        have := (backpropagate_root_fields payout p' x.2).2.1
        simp only [this]
        exact Nat.succ_le_succ (h2 x hx)
      · rw [if_neg hxm] at hxeq
        subst hxeq
        exact Nat.le_succ_of_le (h2 x hx)
    · intro mc hmc
      obtain ⟨x, hx, hxeq⟩ := List.mem_map.mp hmc
      by_cases hxm : x.1 = m
      · rw [if_pos hxm] at hxeq
        subst hxeq
        exact ih x.2 (h5 x hx)
      · rw [if_neg hxm] at hxeq
        subst hxeq
        exact h5 x hx

/-- `expand` keeps the expanded node's visit count and preserves the
invariant: the frontier is drained into fresh zero-visit children. -/
theorem expand_preserves_inv [DecidableEq Move] {R : Rules Pos Move}
    {Gn : RandGen Move g}
    (Hlm : ∀ p, (R.legalMoves p).Nodup)
    (Hsh : ∀ (l : List Move) (gen : g), ((Gn.shuffle l gen).1).Perm l)
    {t : Node Pos Move} (gen : g) (hinv : TreeInv t) :
    TreeInv (expand R Gn t gen).1 ∧
    (expand R Gn t gen).1.visit_count = t.visit_count := by
  obtain ⟨b, a, v, fr, ch⟩ := t
  obtain ⟨h1, h2, h3, h4, h5⟩ := treeInv_elim hinv
  have hfrnd : fr.Nodup := h1.of_append_left
  have hdisj : fr.Disjoint (ch.map Prod.fst) := List.disjoint_of_nodup_append h1
  obtain ⟨newch, hres, hkeys2, hfresh, -⟩ :=
    expandAux_spec R Gn b fr.reverse ch none gen (List.nodup_reverse.mpr hfrnd)
      (by
        intro m hm mc hmc heq
        exact hdisj (List.mem_reverse.mp hm) (heq ▸ List.mem_map_of_mem Prod.fst hmc))
  constructor
  · simp only [expand]
    rw [hres]
    refine TreeInv.mk _ _ _ _ _ ?_ ?_ h3 h4 ?_
    · simp only [List.nil_append, List.map_append]
      rw [hkeys2]
      have hperm : (fr ++ ch.map Prod.fst).Perm (ch.map Prod.fst ++ fr.reverse) :=
        (List.perm_append_comm).trans (List.Perm.append_left _ (fr.reverse_perm).symm)
      exact hperm.nodup h1
    · intro mc hmc
      rcases List.mem_append.mp hmc with hmc1 | hmc1
      · exact h2 mc hmc1
      · obtain ⟨-, -, hv0, -, -⟩ := hfresh mc hmc1
        rw [hv0]
        exact Nat.zero_le v
    · intro mc hmc
      rcases List.mem_append.mp hmc with hmc1 | hmc1
      · exact h5 mc hmc1
      · obtain ⟨m0, c0⟩ := mc
        obtain ⟨hb2, ha2, hv2, hc2, gs, hfr2⟩ := hfresh (m0, c0) hmc1
        obtain ⟨b2, a2, v2, fr2, ch2⟩ := c0
        simp only [Node.board, Node.average_evaluation, Node.visit_count,
          Node.unexplored_moves, Node.children] at hb2 ha2 hv2 hc2 hfr2
        subst ha2 hv2 hc2
        refine TreeInv.mk _ _ _ _ _ ?_ (by intro x hx; cases hx) le_rfl zero_le_one
          (by intro x hx; cases hx)
        simp only [List.map_nil, List.append_nil]
        rw [hfr2]
        exact ((Hsh _ gs).nodup_iff).mpr (Hlm _)
  · simp only [expand]
    rfl

/-- Replacing the node addressed by a valid path with a node of equal visit
count keeps the whole tree's root visit count. -/
theorem replaceAt_visit_eq [DecidableEq Move] {ex : Node Pos Move} :
    ∀ (p : List Move) (t s : Node Pos Move), nodeAt t p = some s →
      ex.visit_count = s.visit_count →
      (replaceAt ex p t).visit_count = t.visit_count := by
  intro p
  induction p with
  | nil =>
    intro t s hns hvis
    simp only [nodeAt, Option.some.injEq] at hns
    subst hns
    simpa using hvis
  | cons m p' _ =>
    intro t s hns hvis
    obtain ⟨b, a, v, fr, ch⟩ := t
    simp [replaceAt, Node.visit_count]

/-- Replacing a validly addressed node with an invariant node of equal visit
count preserves the invariant of the surrounding tree. -/
theorem replaceAt_preserves_inv [DecidableEq Move] {ex : Node Pos Move} :
    ∀ (p : List Move) (t s : Node Pos Move), TreeInv t → nodeAt t p = some s →
      TreeInv ex → ex.visit_count = s.visit_count →
      TreeInv (replaceAt ex p t) := by
  intro p
  induction p with
  | nil =>
    intro t s hinv hns hex _
    exact hex
  | cons m p' ih =>
    intro t s hinv hns hex hvis
    obtain ⟨b, a, v, fr, ch⟩ := t
    obtain ⟨h1, h2, h3, h4, h5⟩ := treeInv_elim hinv
    simp only [nodeAt, Node.children] at hns
    cases hfind : List.find? (fun mc => mc.1 == m) ch with
    | none => rw [hfind] at hns; cases hns
    | some mc =>
      rw [hfind] at hns
      have hmcmem : mc ∈ ch := List.mem_of_find?_eq_some hfind
      have hmckey : mc.1 = m := by simpa using List.find?_some hfind
      have hkeysnd : (ch.map Prod.fst).Nodup := h1.of_append_right
      simp only [replaceAt]
      have hkeys : ((ch.map (fun x => if x.1 = m then (x.1, replaceAt ex p' x.2)
          else x)).map Prod.fst) = ch.map Prod.fst :=
        map_fst_of_key_preserving _ (by intro x; by_cases hx : x.1 = m <;> simp [hx])
      refine TreeInv.mk _ _ _ _ _ (by rw [hkeys]; exact h1) ?_ h3 h4 ?_
      · intro y hy
        obtain ⟨x, hx, hxeq⟩ := List.mem_map.mp hy
        by_cases hxm : x.1 = m
        · have hxmc : x = mc := eq_of_keys_nodup ch x mc hkeysnd hx hmcmem
            (hxm.trans hmckey.symm)
          subst hxmc
          rw [if_pos hxm] at hxeq
          subst hxeq
          have := replaceAt_visit_eq p' x.2 s hns hvis
          simp only [this]
          exact h2 x hx
        · rw [if_neg hxm] at hxeq
          subst hxeq
          exact h2 x hx
      · intro y hy
        obtain ⟨x, hx, hxeq⟩ := List.mem_map.mp hy
        by_cases hxm : x.1 = m
        · have hxmc : x = mc := eq_of_keys_nodup ch x mc hkeysnd hx hmcmem
            (hxm.trans hmckey.symm)
          subst hxmc
          rw [if_pos hxm] at hxeq
          subst hxeq
          exact ih x.2 s (h5 x hx) hns hex hvis
        · rw [if_neg hxm] at hxeq
          subst hxeq
          exact h5 x hx

/-- One successfully completed loop iteration preserves the tree invariant. -/
theorem mctsIter_preserves_inv [DecidableEq Move] {R : Rules Pos Move}
    {Gn : RandGen Move g}
    (Hlm : ∀ p, (R.legalMoves p).Nodup)
    (Hsh : ∀ (l : List Move) (gen : g), ((Gn.shuffle l gen).1).Perm l)
    {fuel : ℕ} {t : Node Pos Move} {gen : g} {t2 : Node Pos Move} {gen2 : g}
    (hinv : TreeInv t) (hstep : mctsIter R Gn fuel t gen = some (t2, gen2)) :
    TreeInv t2 := by
  simp only [mctsIter] at hstep
  by_cases hcond : 0 < (selectAux t).2.unexplored_moves.length ∧
      0 < (selectAux t).2.visit_count
  · rw [if_pos hcond] at hstep
    rcases hexp : expand R Gn (selectAux t).2 gen with ⟨ex, olast, gen3⟩
    simp only [hexp] at hstep
    cases olast with
    | none => cases hstep
    | some mc =>
      cases hsim : (simulate R Gn fuel mc.2 gen3).1 with
      | none =>
        simp only [hsim] at hstep
        exact Option.noConfusion hstep
      | some payout =>
        simp only [hsim, Option.some.injEq, Prod.mk.injEq] at hstep
        obtain ⟨ht2, -⟩ := hstep
        subst ht2
        have hrange : payout = 0 ∨ payout = 1/2 ∨ payout = 1 :=
          simulateBoard_payout_range R Gn fuel mc.2.board gen3 payout
            (by simp only [simulate] at hsim; exact hsim)
        have hp0 : 0 ≤ payout := by rcases hrange with h | h | h <;> rw [h] <;> norm_num
        have hp1 : payout ≤ 1 := by rcases hrange with h | h | h <;> rw [h] <;> norm_num
        have hkn := treeInv_keysNodup hinv
        have hvalid := ((selectAux_spec_aux (sizeOf t) t le_rfl).2.2 hkn).1
        have hsub : TreeInv (selectAux t).2 :=
          nodeAt_treeInv (selectAux t).1 t _ hinv hvalid
        have hexp2 := expand_preserves_inv Hlm Hsh gen hsub
        rw [hexp] at hexp2
        have hrep := replaceAt_preserves_inv (selectAux t).1 t (selectAux t).2 hinv
          hvalid hexp2.1 hexp2.2
        exact backpropagate_preserves_inv hp0 hp1 _ _ hrep
  · rw [if_neg hcond] at hstep
    cases hsim : (simulate R Gn fuel (selectAux t).2 gen).1 with
    | none =>
      simp only [hsim] at hstep
      exact Option.noConfusion hstep
    | some payout =>
      simp only [hsim, Option.some.injEq, Prod.mk.injEq] at hstep
      obtain ⟨ht2, -⟩ := hstep
      subst ht2
      have hrange : payout = 0 ∨ payout = 1/2 ∨ payout = 1 :=
        simulateBoard_payout_range R Gn fuel (selectAux t).2.board gen payout
          (by simp only [simulate] at hsim; exact hsim)
      have hp0 : 0 ≤ payout := by rcases hrange with h | h | h <;> rw [h] <;> norm_num
      have hp1 : payout ≤ 1 := by rcases hrange with h | h | h <;> rw [h] <;> norm_num
      exact backpropagate_preserves_inv hp0 hp1 _ _ hinv

/-- Every tree state reachable by the search loop satisfies the combined
invariant, provided the rules engine produces duplicate-free legal-move lists
and shuffling permutes (both true of python-chess and `random.shuffle`). -/
theorem reachable_treeInv [DecidableEq Move] {R : Rules Pos Move}
    {Gn : RandGen Move g}
    (Hlm : ∀ p, (R.legalMoves p).Nodup)
    (Hsh : ∀ (l : List Move) (gen : g), ((Gn.shuffle l gen).1).Perm l)
    {t : Node Pos Move} {gen : g} (h : Reachable R Gn t gen) : TreeInv t := by
  induction h with
  | init board gen0 => exact mkNode_treeInv R Gn Hlm Hsh board gen0
  | step fuel hr hstep ih => exact mctsIter_preserves_inv Hlm Hsh ih hstep

/-- The demo game's legal-move lists have no duplicates. -/
theorem demo_legal_nodup : ∀ p : ℕ, (demoRules.legalMoves p).Nodup := by
  intro p
  have hinj : Function.Injective (fun x : ℕ => x + 1) := by
    intro x y hxy
    have hxy2 : x + 1 = y + 1 := hxy
    omega
  exact List.Nodup.map hinj (List.nodup_range p)

/-- The demo random source's shuffle is the identity permutation. -/
theorem demo_shuffle_perm :
    ∀ (l : List ℕ) (gen : Unit), ((demoGen.shuffle l gen).1).Perm l :=
  fun l _ => List.Perm.refl l

/-- Claim C10: in every tree state reachable by iterating the search loop from
a freshly created root, every non-root node's visit count is at most its
parent's (each backpropagation increments exactly the nodes of one
root-directed path, and expansion only creates zero-visit children).
Consequently, whenever `select`'s maximization scores a child with positive
visit count against its parent `s`, the finite branch of `uct` is taken with
`Real.log` applied to the positive argument `s.visit_count`, so the
`math.log` domain-error branch is unreachable.  The hypotheses record that
the external rules engine returns duplicate-free legal moves and that
`random.shuffle` permutes its list. -/
theorem reachable_child_visits_le_parent [DecidableEq Move] (R : Rules Pos Move)
    (Gn : RandGen Move g)
    (Hlm : ∀ p, (R.legalMoves p).Nodup)
    (Hsh : ∀ (l : List Move) (gen : g), ((Gn.shuffle l gen).1).Perm l)
    {t : Node Pos Move} {gen : g} (h : Reachable R Gn t gen) :
    ∀ s ∈ subtrees t, ∀ mc ∈ s.children,
      mc.2.visit_count ≤ s.visit_count ∧
      (0 < mc.2.visit_count → (0 : ℝ) < (s.visit_count : ℝ) ∧
        uct mc.2 s = (((mc.2.average_evaluation : ℝ) + UCT_EXPLORATION_CONSTANT *
          Real.sqrt (Real.log (s.visit_count : ℝ) / (mc.2.visit_count : ℝ)) : ℝ) :
            EReal)) := by
  have hinv := reachable_treeInv Hlm Hsh h
  intro s hs mc hmc
  have hsinv := treeInv_of_mem_subtrees (sizeOf t) t le_rfl hinv s hs
  obtain ⟨b, a, v, fr, ch⟩ := s
  obtain ⟨-, h2, -, -, -⟩ := treeInv_elim hsinv
  simp only [Node.children] at hmc
  have hle : mc.2.visit_count ≤ v := h2 mc hmc
  refine ⟨by simpa [Node.visit_count] using hle, ?_⟩
  intro hpos
  have hvpos : 0 < v := lt_of_lt_of_le hpos hle
  constructor
  · simp only [Node.visit_count]
    exact_mod_cast hvpos
  · rw [uct, if_neg (Nat.pos_iff_ne_zero.mp hpos)]

/-- Witness for C10 at a concrete reachable demo state: two loop iterations
from the root board `1` produce a tree whose root (two visits) has a child
with one visit; the child's visit count is bounded by the parent's and `uct`
of the child takes the finite branch with `Real.log` applied to the positive
parent visit count. -/
theorem reachable_child_visits_le_parent_witness :
    (Node.mk 0 (1/2) 1 [] [] : Node ℕ ℕ).visit_count ≤
      (Node.mk 1 (1/2) 2 [] [(1, Node.mk 0 (1/2) 1 [] [])] : Node ℕ ℕ).visit_count ∧
    (0 : ℝ) <
      (((Node.mk 1 (1/2) 2 [] [(1, Node.mk 0 (1/2) 1 [] [])] : Node ℕ ℕ).visit_count :
        ℝ)) ∧
    uct (Node.mk 0 (1/2) 1 [] [] : Node ℕ ℕ)
        (Node.mk 1 (1/2) 2 [] [(1, Node.mk 0 (1/2) 1 [] [])]) =
      ((((Node.mk 0 (1/2) 1 [] [] : Node ℕ ℕ).average_evaluation : ℝ) +
        UCT_EXPLORATION_CONSTANT * Real.sqrt (Real.log
          (((Node.mk 1 (1/2) 2 [] [(1, Node.mk 0 (1/2) 1 [] [])] : Node ℕ ℕ).visit_count :
            ℝ)) /
          (((Node.mk 0 (1/2) 1 [] [] : Node ℕ ℕ).visit_count : ℝ))) : ℝ) : EReal) := by
  have hs1 : selectAux (Node.mk 1 0 0 [1] [] : Node ℕ ℕ) = ([], Node.mk 1 0 0 [1] []) := by
    rw [selectAux]
    simp [Node.is_leaf, Node.unexplored_moves]
  have hstep1 : mctsIter demoRules demoGen 5 (Node.mk 1 0 0 [1] []) () =
      some (Node.mk 1 (1/2) 1 [1] [], ()) := by
    have h0 : mctsIter demoRules demoGen 5 (Node.mk 1 0 0 [1] []) () =
        some (Node.mk 1 ((0 * ((0:ℕ) : ℚ) + 1/2) / (((0:ℕ) : ℚ) + 1)) (0+1) [1] [], ()) := by
      simp only [mctsIter, hs1]
      rfl
    rw [h0]
    norm_num
  have hs2 : selectAux (Node.mk 1 (1/2) 1 [1] [] : Node ℕ ℕ) =
      ([], Node.mk 1 (1/2) 1 [1] []) := by
    rw [selectAux]
    simp [Node.is_leaf, Node.unexplored_moves]
  have hstep2 : mctsIter demoRules demoGen 5 (Node.mk 1 (1/2) 1 [1] []) () =
      some (Node.mk 1 (1/2) 2 [] [(1, Node.mk 0 (1/2) 1 [] [])], ()) := by
    have h0 : mctsIter demoRules demoGen 5 (Node.mk 1 (1/2) 1 [1] []) () =
        some (Node.mk 1 ((1/2 * ((1:ℕ) : ℚ) + 1/2) / (((1:ℕ) : ℚ) + 1)) (1+1) []
          [(1, Node.mk 0 ((0 * ((0:ℕ) : ℚ) + 1/2) / (((0:ℕ) : ℚ) + 1)) (0+1) [] [])], ()) := by
      simp only [mctsIter, hs2]
      rfl
    rw [h0]
    norm_num
  have hr : Reachable demoRules demoGen
      (Node.mk 1 (1/2) 2 [] [(1, Node.mk 0 (1/2) 1 [] [])]) () :=
    Reachable.step 5 (Reachable.step 5 (Reachable.init 1 ()) hstep1) hstep2
  have h := reachable_child_visits_le_parent demoRules demoGen demo_legal_nodup
    demo_shuffle_perm hr
  have hmem1 : (Node.mk 1 (1/2) 2 [] [(1, Node.mk 0 (1/2) 1 [] [])] : Node ℕ ℕ) ∈
      subtrees (Node.mk 1 (1/2) 2 [] [(1, Node.mk 0 (1/2) 1 [] [])] : Node ℕ ℕ) :=
    mem_subtrees.mpr (Or.inl rfl)
  have hmem2 : ((1 : ℕ), (Node.mk 0 (1/2) 1 [] [] : Node ℕ ℕ)) ∈
      (Node.mk 1 (1/2) 2 [] [(1, Node.mk 0 (1/2) 1 [] [])] : Node ℕ ℕ).children := by
    simp [Node.children]
  have h2 := h _ hmem1 _ hmem2
  exact ⟨h2.1, (h2.2 (by decide)).1, (h2.2 (by decide)).2⟩

/-- Claim C8: the running mean `average_evaluation` of every node of every
reachable tree state lies in `[0, 1]`: it starts at `0`, the playout produces
only the payouts `1`, `0.5`, `0` of the `payouts` dict (White win /
draw-or-no-winner / Black win), and each backpropagation replaces the mean
with a convex combination of the old mean and such a payout. -/
theorem averages_in_unit_interval [DecidableEq Move] (R : Rules Pos Move)
    (Gn : RandGen Move g)
    (Hlm : ∀ p, (R.legalMoves p).Nodup)
    (Hsh : ∀ (l : List Move) (gen : g), ((Gn.shuffle l gen).1).Perm l)
    {t : Node Pos Move} {gen : g} (h : Reachable R Gn t gen) :
    (∀ (fuel : ℕ) (b : Pos) (gen1 : g) (q : ℚ),
      (simulateBoard R Gn fuel b gen1).1 = some q → q = 1 ∨ q = 1/2 ∨ q = 0) ∧
    ∀ s ∈ subtrees t, 0 ≤ s.average_evaluation ∧ s.average_evaluation ≤ 1 := by
  constructor
  · intro fuel b gen1 q hq
    rcases simulateBoard_payout_range R Gn fuel b gen1 q hq with h1 | h1 | h1
    · exact Or.inr (Or.inr h1)
    · exact Or.inr (Or.inl h1)
    · exact Or.inl h1
  · have hinv := reachable_treeInv Hlm Hsh h
    intro s hs
    have hsinv := treeInv_of_mem_subtrees (sizeOf t) t le_rfl hinv s hs
    obtain ⟨b, a, v, fr, ch⟩ := s
    obtain ⟨-, -, h3, h4, -⟩ := treeInv_elim hsinv
    exact ⟨h3, h4⟩

/-- Witness for C8: a concrete playout payout of the demo game and the bounds
at the initial demo tree (reachable by construction). -/
theorem averages_in_unit_interval_witness :
    (∀ (fuel : ℕ) (b : ℕ) (gen1 : Unit) (q : ℚ),
      (simulateBoard demoRules demoGen fuel b gen1).1 = some q →
        q = 1 ∨ q = 1/2 ∨ q = 0) ∧
    ∀ s ∈ subtrees (mkNode demoRules demoGen 2 ()).1,
      0 ≤ s.average_evaluation ∧ s.average_evaluation ≤ 1 :=
  averages_in_unit_interval demoRules demoGen demo_legal_nodup demo_shuffle_perm
    (Reachable.init 2 ())

end ChessMCTS







